import Mathlib

/-!
Verification of the classroom-check assignment scripts
(`Classroom_shift_assignment_script.py`, single-week mode, and
`Two_Week_assignment.py`, two-week mode).

The embedding models the core computation of both scripts over already-cleaned
input tables, as the specification's external-interface section describes them:

* instants (shift starts/ends, class starts/ends) are integers (minutes);
  a failed `pd.to_datetime(..., errors='coerce')` parse (`NaT`) is `none`,
  and, as in pandas, every comparison against `NaT` is false;
* a room-inventory row carries the cleaned room name, zone, priority and type;
  the building code is derived in the core, as in the scripts, as the leading
  run of ASCII uppercase letters of the room name (`^([A-Z]+)`);
* pandas `sort_values` is modelled as a stable insertion sort on the listed
  columns (numpy's sort is insertion sort on the small frames involved, which
  keeps the input order of ties), and `drop_duplicates` keeps first occurrences;
* the `"HH:MM"` `strftime` rendering of shift bounds in the output rows is
  presentational; assignment records keep the underlying instants.
-/

/-! ## Stable insertion sort (model of `sort_values`) -/

/-- Insert `a` into `l`, before the first element that `a` may precede
(`le a b`); equal elements keep the earlier element first, so sorting with
this insertion is stable. -/
def insSorted (le : α → α → Bool) (a : α) : List α → List α
  | [] => [a]
  | b :: l => if le a b then a :: b :: l else b :: insSorted le a l

/-- Stable insertion sort by the Boolean comparator `le`. -/
def isort (le : α → α → Bool) : List α → List α
  | [] => []
  | a :: l => insSorted le a (isort le l)

/-- Sortedness with respect to a Boolean comparator. -/
def SortedBy (le : α → α → Bool) (l : List α) : Prop :=
  List.Pairwise (fun a b => le a b = true) l

theorem insSorted_perm (le : α → α → Bool) (a : α) (l : List α) :
    List.Perm (insSorted le a l) (a :: l) := by
  induction l with
  | nil => exact List.Perm.refl _
  | cons b l ih =>
    simp only [insSorted]
    split
    · exact List.Perm.refl _
    · exact (ih.cons b).trans (List.Perm.swap a b l)

theorem isort_perm (le : α → α → Bool) (l : List α) :
    List.Perm (isort le l) l := by
  induction l with
  | nil => exact List.Perm.refl _
  | cons a l ih => exact (insSorted_perm le a (isort le l)).trans (ih.cons a)

theorem isort_mem (le : α → α → Bool) (l : List α) (a : α) :
    a ∈ isort le l ↔ a ∈ l :=
  (isort_perm le l).mem_iff

theorem insSorted_sorted (le : α → α → Bool)
    (tot : ∀ a b, le a b = true ∨ le b a = true)
    (tr : ∀ a b c, le a b = true → le b c = true → le a c = true)
    (a : α) (l : List α) (h : SortedBy le l) : SortedBy le (insSorted le a l) := by
  induction l with
  | nil => simp [insSorted, SortedBy]
  | cons b l ih =>
    have hb := (List.pairwise_cons.mp h).1
    have hl := (List.pairwise_cons.mp h).2
    simp only [insSorted]
    split
    case isTrue hab =>
      refine List.pairwise_cons.mpr ⟨?_, h⟩
      intro x hx
      rcases List.mem_cons.mp hx with rfl | hx
      · exact hab
      · exact tr a b x hab (hb x hx)
    case isFalse hab =>
      refine List.pairwise_cons.mpr ⟨?_, ih hl⟩
      intro x hx
      rcases List.mem_cons.mp ((insSorted_perm le a l).mem_iff.mp hx) with rfl | hx
      · rcases tot x b with h' | h'
        · exact absurd h' (by simpa using hab)
        · exact h'
      · exact hb x hx

theorem isort_sorted (le : α → α → Bool)
    (tot : ∀ a b, le a b = true ∨ le b a = true)
    (tr : ∀ a b c, le a b = true → le b c = true → le a c = true)
    (l : List α) : SortedBy le (isort le l) := by
  induction l with
  | nil => simp [isort, SortedBy]
  | cons a l ih => exact insSorted_sorted le tot tr a (isort le l) ih

/-! ## Lexicographic Boolean comparators for multi-column sorts -/

/-- Compare by a key into a linear order, then break ties with `rest`:
the comparator corresponding to a pandas multi-column `sort_values`. -/
def keyLex [LinearOrder κ] (key : α → κ) (rest : α → α → Bool) (a b : α) : Bool :=
  decide (key a < key b) || (decide (key a = key b) && rest a b)

/-- Compare by a single key into a linear order (the last sort column). -/
def keyLe [LinearOrder κ] (key : α → κ) (a b : α) : Bool :=
  decide (key a ≤ key b)

theorem keyLe_total [LinearOrder κ] (key : α → κ) :
    ∀ a b, keyLe key a b = true ∨ keyLe key b a = true := by
  intro a b
  rcases le_total (key a) (key b) with h | h
  · left; simpa [keyLe]
  · right; simpa [keyLe]

theorem keyLe_trans [LinearOrder κ] (key : α → κ) :
    ∀ a b c, keyLe key a b = true → keyLe key b c = true → keyLe key a c = true := by
  intro a b c hab hbc
  simp only [keyLe, decide_eq_true_eq] at *
  exact le_trans hab hbc

theorem keyLex_total [LinearOrder κ] (key : α → κ) (rest : α → α → Bool)
    (hrest : ∀ a b, rest a b = true ∨ rest b a = true) :
    ∀ a b, keyLex key rest a b = true ∨ keyLex key rest b a = true := by
  intro a b
  rcases lt_trichotomy (key a) (key b) with h | h | h
  · left; simp [keyLex, h]
  · rcases hrest a b with h' | h'
    · left; simp [keyLex, h, h']
    · right; simp [keyLex, h.symm, h']
  · right; simp [keyLex, h]

theorem keyLex_trans [LinearOrder κ] (key : α → κ) (rest : α → α → Bool)
    (hrest : ∀ a b c, rest a b = true → rest b c = true → rest a c = true) :
    ∀ a b c, keyLex key rest a b = true → keyLex key rest b c = true →
      keyLex key rest a c = true := by
  intro a b c hab hbc
  simp only [keyLex, Bool.or_eq_true, Bool.and_eq_true, decide_eq_true_eq] at *
  rcases hab with hab | ⟨hab, hr1⟩
  · rcases hbc with hbc | ⟨hbc, _⟩
    · exact Or.inl (lt_trans hab hbc)
    · exact Or.inl (hbc ▸ hab)
  · rcases hbc with hbc | ⟨hbc, hr2⟩
    · exact Or.inl (hab ▸ hbc)
    · exact Or.inr ⟨hab.trans hbc, hrest a b c hr1 hr2⟩

/-- Code-point sequence of a string: the key under which Python (and hence
pandas) compares strings. -/
def strKey (s : String) : List Nat :=
  s.data.map Char.toNat

/-! ## First-occurrence deduplication (model of `drop_duplicates`) -/

/-- Keep the first occurrence of each element, as `drop_duplicates` does. -/
def dropDups [DecidableEq α] : List α → List α
  | [] => []
  | a :: l => a :: dropDups (l.filter (fun b => decide (b ≠ a)))
termination_by l => l.length
decreasing_by
  simp only [List.length_cons]
  exact Nat.lt_succ_of_le (List.length_filter_le _ _)

theorem dropDups_subset [DecidableEq α] : ∀ (l : List α) (a : α), a ∈ dropDups l → a ∈ l := by
  intro l
  induction l using dropDups.induct with
  | case1 => intro a h; simp [dropDups] at h
  | case2 b l ih =>
    intro a h
    rw [dropDups] at h
    rcases List.mem_cons.mp h with rfl | h
    · exact List.mem_cons_self _ _
    · exact List.mem_cons_of_mem _ (List.mem_filter.mp (ih a h)).1

theorem dropDups_nodup [DecidableEq α] : ∀ l : List α, (dropDups l).Nodup := by
  intro l
  induction l using dropDups.induct with
  | case1 => simp [dropDups]
  | case2 a l ih =>
    rw [dropDups]
    refine List.nodup_cons.mpr ⟨?_, ih⟩
    intro hmem
    have h1 := dropDups_subset _ _ hmem
    have h2 := (List.mem_filter.mp h1).2
    simp at h2

/-! ## Data model

Input rows as the cleaned tables hand them to the core. Instants are integer
minutes; `none` stands for pandas `NaT` (a failed `errors='coerce'` parse). -/

/-- Room-inventory row: cleaned room name (`'complete 25live room name'.str.strip()`),
stripped zone string, integer priority, and room type. -/
structure RoomRec where
  room : String
  zone : String
  priority : Int
  rtype : String
deriving DecidableEq

/-- Building code, derived as in `rooms['room'].str.extract(r'^([A-Z]+)')`:
the leading run of ASCII uppercase letters of the room name (empty when the
name has no such prefix, where pandas would put NaN). -/
def RoomRec.building (r : RoomRec) : String :=
  String.mk (r.room.data.takeWhile Char.isUpper)

/-- Class-schedule row after the `Status == 'Confirmed'` table is formed:
raw status, the raw `'day of week of first session'` value, the parse results
of start/end date-times (`none` = NaT), and the raw `'Locations'` cell. -/
structure ClassRecord where
  status : String
  dayOfWeek : String
  startDT : Option Int
  endDT : Option Int
  locations : String
deriving DecidableEq

/-- Student-shift row after upstream cleaning (rows with unparseable times or
unmapped weekday are dropped before the core runs). -/
structure StudentShift where
  person : String
  day : String
  startDt : Int
  endDt : Int
deriving DecidableEq

/-- Output assignment record. Shift bounds are kept as instants; the scripts
render them as `"HH:MM"` strings on output. -/
structure Assignment where
  student : String
  day : String
  shiftStart : Int
  shiftEnd : Int
  room : String
  building : String
  zone : String
  priority : Int
  roomType : String
deriving DecidableEq

/-- Weekday normalization of the class schedule:
`{"Mon": "Monday", "Tue": "Tuesday", "Weds": "Wednesday", "Thu": "Thursday",
"Fri": "Friday"}`; an unmapped value becomes `none` (pandas NaN). -/
def dayMap (s : String) : Option String :=
  if s = "Mon" then some "Monday"
  else if s = "Tue" then some "Tuesday"
  else if s = "Weds" then some "Wednesday"
  else if s = "Thu" then some "Thursday"
  else if s = "Fri" then some "Friday"
  else none

/-- Whitespace-stripped copy of a string (`str.strip()`). -/
def pyStrip (s : String) : String :=
  String.mk (((s.data.dropWhile Char.isWhitespace).reverse.dropWhile Char.isWhitespace).reverse)

/-- Comma split of a string cell, as Python `str.split(',')`. -/
def splitOnCommaAux : List Char → List Char → List String
  | [], acc => [String.mk acc.reverse]
  | c :: cs, acc =>
    if c = ',' then String.mk acc.reverse :: splitOnCommaAux cs []
    else splitOnCommaAux cs (c :: acc)

/-- Room list of a class row: `Locations.astype(str).str.split(',')` followed by
`.str.strip()` on the exploded rows. -/
def splitRooms (locations : String) : List String :=
  (splitOnCommaAux locations.data []).map pyStrip

/-- Occupancy-index lookup `schedule_by_room_day[(room, day)]`: the intervals,
in row order, of every exploded room of every `Confirmed` row whose room and
mapped day match the key. Rows with unparseable date-times keep their `none`
endpoints. -/
def schedule_by_room_day (records : List ClassRecord) (rm : String) (dy : Option String) :
    List (Option Int × Option Int) :=
  (records.filter (fun r => decide (r.status = "Confirmed"))).flatMap
    (fun r => (splitRooms r.locations).filterMap
      (fun room => if room = rm ∧ dayMap r.dayOfWeek = dy then some (r.startDT, r.endDT) else none))

/-- Comparison against a possibly-NaT instant: pandas `NaT < x` and `x < NaT`
are false. -/
def optLt : Option Int → Option Int → Bool
  | some a, some b => decide (a < b)
  | _, _ => false

/-- Strict interval overlap test of the scripts:
`start < shift_end and end > shift_start`. -/
def overlapsShift (iv : Option Int × Option Int) (shiftStart shiftEnd : Int) : Bool :=
  optLt iv.1 (some shiftEnd) && optLt (some shiftStart) iv.2

/-- Conflict check for one candidate room:
`any(start < shift_end and end > shift_start for start, end in conflicts)`. -/
def hasConflict (records : List ClassRecord) (rm : String) (day : String)
    (shiftStart shiftEnd : Int) : Bool :=
  (schedule_by_room_day records rm (some day)).any
    (fun iv => overlapsShift iv shiftStart shiftEnd)

/-! ## Zone ranking (shared by both scripts) -/

/-- Rooms of the inventory not yet in the assigned set:
`rooms[~rooms['room'].isin(rooms_assigned)]`. -/
def unassignedRooms (rooms : List RoomRec) (assigned : List String) : List RoomRec :=
  rooms.filter (fun r => decide (r.room ∉ assigned))

/-- Score of one zone: the count of its remaining rooms with priority ≤ 2
(`.apply(lambda x: (x <= 2).sum())`). -/
def zoneScore (unassigned : List RoomRec) (z : String) : Nat :=
  (unassigned.filter (fun r => decide (r.zone = z) && decide (r.priority ≤ 2))).length

/-- Ranked zone list `zone_scores.index`: the distinct zones of the remaining
rooms in ascending name order (pandas `groupby` sorts group keys), stably
re-sorted descending by score (`.sort_values(ascending=False)`). -/
def zone_scores (unassigned : List RoomRec) : List String :=
  isort (fun z1 z2 => decide (zoneScore unassigned z2 ≤ zoneScore unassigned z1))
    (isort (keyLe strKey) ((unassigned.map (fun r => r.zone)).dedup))

/-! ## Single-week script (`Classroom_shift_assignment_script.py`) -/

/-- `ROOM_CHECK_TIME = 10` (minutes per room). -/
def ROOM_CHECK_TIME : Int := 10

/-- `SHIFT_START_END_BUFFER = 0`. -/
def SHIFT_START_END_BUFFER : Int := 0

/-- Mutable run state of the single-week script: the produced assignment rows,
the all-time assigned-room set and the (room, ISO week) assigned set. Sets are
lists holding each inserted element (membership is what the scripts use). -/
structure SWState where
  assignments : List Assignment
  rooms_assigned : List String
  room_week_assigned : List (String × Nat)
deriving DecidableEq

/-- Assignment record appended for a chosen room. -/
def mkAssignment (s : StudentShift) (r : RoomRec) : Assignment :=
  { student := s.person
    day := s.day
    shiftStart := s.startDt
    shiftEnd := s.endDt
    room := r.room
    building := r.building
    zone := r.zone
    priority := r.priority
    roomType := r.rtype }

/-- Inner candidate loop of the single-week script: skip on the (room, week)
set, skip on a class conflict, stop (`break`) when the room no longer fits the
time budget, otherwise append the assignment and grow all three sets. -/
def swAssignLoop (records : List ClassRecord) (s : StudentShift) (week_num : Nat)
    (usable_time : Int) : List RoomRec → Int → SWState → SWState
  | [], _, st => st
  | r :: rest, time_used, st =>
    if (r.room, week_num) ∈ st.room_week_assigned then
      swAssignLoop records s week_num usable_time rest time_used st
    else if hasConflict records r.room s.day s.startDt s.endDt then
      swAssignLoop records s week_num usable_time rest time_used st
    else if usable_time < time_used + ROOM_CHECK_TIME then st
    else
      swAssignLoop records s week_num usable_time rest (time_used + ROOM_CHECK_TIME)
        { assignments := st.assignments ++ [mkAssignment s r]
          rooms_assigned := r.room :: st.rooms_assigned
          room_week_assigned := (r.room, week_num) :: st.room_week_assigned }

/-- Zone selection of the single-week script: walk `zone_scores.index` and take
the first zone with a nonempty unassigned-room subframe. -/
def zone_chosen (rooms : List RoomRec) (assigned : List String) : Option String :=
  (zone_scores (unassignedRooms rooms assigned)).find?
    (fun z => !((unassignedRooms rooms assigned).filter (fun r => decide (r.zone = z))).isEmpty)

/-- Candidate frame of the single-week script:
`rooms[(zone == zone_chosen) & ~isin(rooms_assigned)].sort_values(by='priority')`. -/
def zone_rooms_df (rooms : List RoomRec) (assigned : List String) (z : String) : List RoomRec :=
  isort (keyLe (fun r : RoomRec => r.priority))
    (rooms.filter (fun r => decide (r.zone = z) && decide (r.room ∉ assigned)))

/-- One student-shift iteration of the single-week script. The guard after the
zone walk is Python's `if not zone_chosen: continue`, which also fires when the
chosen zone's name is the empty string. -/
def processShiftSW (records : List ClassRecord) (rooms : List RoomRec) (isoWeek : Int → Nat)
    (st : SWState) (s : StudentShift) : SWState :=
  let week_num := isoWeek s.startDt
  let usable_time : Int := (s.endDt - s.startDt) - SHIFT_START_END_BUFFER
  if usable_time ≤ 0 then st
  else
    match zone_chosen rooms st.rooms_assigned with
    | none => st
    | some z =>
      if z = "" then st
      else swAssignLoop records s week_num usable_time
        (zone_rooms_df rooms st.rooms_assigned z) 0 st

/-- Whole single-week run: fold over the student shifts in input order. -/
def runSW (records : List ClassRecord) (rooms : List RoomRec) (isoWeek : Int → Nat)
    (students : List StudentShift) : SWState :=
  students.foldl (processShiftSW records rooms isoWeek) ⟨[], [], []⟩

/-- Row of the unchecked-classrooms output table
(`['room', 'building', 'zone', 'priority', 'type']`). -/
structure URow where
  room : String
  building : String
  zone : String
  priority : Int
  rtype : String
deriving DecidableEq

/-- Projection of an inventory row onto the unchecked-table columns. -/
def toURow (r : RoomRec) : URow :=
  ⟨r.room, r.building, r.zone, r.priority, r.rtype⟩

/-- `unchecked_rooms = set(rooms['room'].dropna().unique()) - rooms_assigned`. -/
def unchecked_rooms (rooms : List RoomRec) (assigned : List String) : List String :=
  ((rooms.map (fun r => r.room)).dedup).filter (fun n => decide (n ∉ assigned))

/-- Sort key of the unchecked table: `sort_values(by=['priority', 'building', 'room'])`. -/
def urowLe : URow → URow → Bool :=
  keyLex (fun u : URow => u.priority)
    (keyLex (fun u : URow => strKey u.building) (keyLe (fun u : URow => strKey u.room)))

/-- `unchecked_df`: inventory rows whose room is in the unchecked set, projected,
deduplicated (first occurrences) and sorted by (priority, building, room). -/
def unchecked_df (rooms : List RoomRec) (assigned : List String) : List URow :=
  isort urowLe
    (dropDups ((rooms.filter
      (fun r => decide (r.room ∈ unchecked_rooms rooms assigned))).map toURow))

/-! ## Single-week variant without the week-scoped set (for the refinement claim) -/

/-- Variant of `swAssignLoop` with the `(room_name, week_num) in
room_week_assigned` skip removed; the set itself is still maintained. -/
def swAssignLoopNoWeek (records : List ClassRecord) (s : StudentShift) (week_num : Nat)
    (usable_time : Int) : List RoomRec → Int → SWState → SWState
  | [], _, st => st
  | r :: rest, time_used, st =>
    if hasConflict records r.room s.day s.startDt s.endDt then
      swAssignLoopNoWeek records s week_num usable_time rest time_used st
    else if usable_time < time_used + ROOM_CHECK_TIME then st
    else
      swAssignLoopNoWeek records s week_num usable_time rest (time_used + ROOM_CHECK_TIME)
        { assignments := st.assignments ++ [mkAssignment s r]
          rooms_assigned := r.room :: st.rooms_assigned
          room_week_assigned := (r.room, week_num) :: st.room_week_assigned }

/-- `processShiftSW` with the week-scoped-set check removed. -/
def processShiftSWNoWeek (records : List ClassRecord) (rooms : List RoomRec)
    (isoWeek : Int → Nat) (st : SWState) (s : StudentShift) : SWState :=
  let week_num := isoWeek s.startDt
  let usable_time : Int := (s.endDt - s.startDt) - SHIFT_START_END_BUFFER
  if usable_time ≤ 0 then st
  else
    match zone_chosen rooms st.rooms_assigned with
    | none => st
    | some z =>
      if z = "" then st
      else swAssignLoopNoWeek records s week_num usable_time
        (zone_rooms_df rooms st.rooms_assigned z) 0 st

/-- Whole single-week run of the no-week-set variant. -/
def runSWNoWeek (records : List ClassRecord) (rooms : List RoomRec) (isoWeek : Int → Nat)
    (students : List StudentShift) : SWState :=
  students.foldl (processShiftSWNoWeek records rooms isoWeek) ⟨[], [], []⟩

/-! ## Two-week script (`Two_Week_assignment.py`) -/

/-- `EFFECTIVE_ROOM_CHECK_TIME = max(1, int(round(ROOM_CHECK_TIME * HALF_TIME_FACTOR)))
= max(1, round(10 * 0.5)) = 5`. -/
def EFFECTIVE_ROOM_CHECK_TIME : Int := 5

/-- Mutable run state of the two-week script before the week split. -/
structure TWState where
  assignments_base : List Assignment
  rooms_assigned_global : List String
deriving DecidableEq

/-- Sort key of the two-week candidate frame:
`sort_values(by=['priority', 'building', 'room'])`. -/
def roomLexLe : RoomRec → RoomRec → Bool :=
  keyLex (fun r : RoomRec => r.priority)
    (keyLex (fun r : RoomRec => strKey r.building) (keyLe (fun r : RoomRec => strKey r.room)))

/-- Two-week candidate frame for one zone:
`rooms[(zone == z) & ~isin(rooms_assigned_global)].sort_values(by=['priority','building','room'])`. -/
def twCandidate (rooms : List RoomRec) (assigned : List String) (z : String) : List RoomRec :=
  isort roomLexLe (rooms.filter (fun r => decide (r.zone = z) && decide (r.room ∉ assigned)))

/-- Inner candidate loop of the two-week script: skip rooms used this shift or
assigned globally, skip class conflicts, stop (`break`) when the room no longer
fits the budget, otherwise assign. -/
def twAssignLoop (records : List ClassRecord) (s : StudentShift) (usable_time : Int) :
    List RoomRec → Int → List String → TWState → TWState
  | [], _, _, st => st
  | r :: rest, time_used, used_this_shift, st =>
    if r.room ∈ used_this_shift ∨ r.room ∈ st.rooms_assigned_global then
      twAssignLoop records s usable_time rest time_used used_this_shift st
    else if hasConflict records r.room s.day s.startDt s.endDt then
      twAssignLoop records s usable_time rest time_used used_this_shift st
    else if usable_time < time_used + EFFECTIVE_ROOM_CHECK_TIME then st
    else
      twAssignLoop records s usable_time rest (time_used + EFFECTIVE_ROOM_CHECK_TIME)
        (r.room :: used_this_shift)
        { assignments_base := st.assignments_base ++ [mkAssignment s r]
          rooms_assigned_global := r.room :: st.rooms_assigned_global }

/-- Zone lock of the two-week script: the zone loop skips zones with an empty
candidate frame (`if candidate.empty: continue`) and breaks after processing
the first zone that has one. -/
def twZoneChosen (rooms : List RoomRec) (assigned : List String) : Option String :=
  (zone_scores (unassignedRooms rooms assigned)).find?
    (fun z => !(twCandidate rooms assigned z).isEmpty)

/-- One student-shift iteration of the two-week script. -/
def processShiftTW (records : List ClassRecord) (rooms : List RoomRec)
    (st : TWState) (s : StudentShift) : TWState :=
  let usable_time : Int := (s.endDt - s.startDt) - SHIFT_START_END_BUFFER
  if usable_time ≤ 0 then st
  else
    match twZoneChosen rooms st.rooms_assigned_global with
    | none => st
    | some z =>
      twAssignLoop records s usable_time
        (twCandidate rooms st.rooms_assigned_global z) 0 [] st

/-- Two-week run before the week split: fold over the shifts in input order. -/
def runTWBase (records : List ClassRecord) (rooms : List RoomRec)
    (students : List StudentShift) : TWState :=
  students.foldl (processShiftTW records rooms) ⟨[], []⟩

/-! ## Week splitter of the two-week script -/

/-- Day relabeling `w["Day"] = f"{day} {k}"`, as a suffix append. -/
def relabelDay (sfx : String) (a : Assignment) : Assignment :=
  { a with day := a.day ++ sfx }

/-- `split_idx = ceil(n / 2)`. -/
def split_idx (n : Nat) : Nat := (n + 1) / 2

/-- Split one (student, day) group, in greedy order: the first `ceil(n/2)` rows
become week 1 (`"<Day> 1"`), the rest week 2 (`"<Day> 2"`). -/
def splitGroup (g : List Assignment) : List Assignment :=
  ((g.take (split_idx g.length)).map (relabelDay " 1")) ++
    ((g.drop (split_idx g.length)).map (relabelDay " 2"))

/-- Membership of one greedy group: `groupby(["Student", "Day"], sort=False)`. -/
def sameKey (a b : Assignment) : Bool :=
  decide (b.student = a.student) && decide (b.day = a.day)

/-- Week splitting over the whole base table: groups in order of first
occurrence, each group holding all its rows in greedy insertion order. -/
def splitWeeks : List Assignment → List Assignment
  | [] => []
  | a :: rest =>
    splitGroup (a :: rest.filter (fun b => sameKey a b)) ++
      splitWeeks (rest.filter (fun b => !sameKey a b))
termination_by l => l.length
decreasing_by
  simp only [List.length_cons]
  exact Nat.lt_succ_of_le (List.length_filter_le _ _)

/-- Final sort of the two-week output:
`sort_values(by=["Student", "Day", "Priority", "Building", "Room"])`. -/
def finalLe : Assignment → Assignment → Bool :=
  keyLex (fun a : Assignment => strKey a.student)
    (keyLex (fun a : Assignment => strKey a.day)
      (keyLex (fun a : Assignment => a.priority)
        (keyLex (fun a : Assignment => strKey a.building)
          (keyLe (fun a : Assignment => strKey a.room)))))

/-- Full two-week output table: the split table, re-sorted. -/
def runTW (records : List ClassRecord) (rooms : List RoomRec)
    (students : List StudentShift) : List Assignment :=
  isort finalLe (splitWeeks (runTWBase records rooms students).assignments_base)

/-! ## Structure lemmas for the single-week inner loop -/

theorem swAssignLoop_spec (records : List ClassRecord) (s : StudentShift) (w : Nat)
    (usable : Int) :
    ∀ (cand : List RoomRec) (tu : Int) (st : SWState),
    ∃ picks : List RoomRec,
      (swAssignLoop records s w usable cand tu st).assignments
          = st.assignments ++ picks.map (mkAssignment s) ∧
      (swAssignLoop records s w usable cand tu st).rooms_assigned
          = (picks.map (fun r => r.room)).reverse ++ st.rooms_assigned ∧
      (swAssignLoop records s w usable cand tu st).room_week_assigned
          = (picks.map (fun r => (r.room, w))).reverse ++ st.room_week_assigned ∧
      (∀ r ∈ picks, r ∈ cand ∧ hasConflict records r.room s.day s.startDt s.endDt = false) ∧
      (picks = [] ∨ tu + (picks.length : Int) * ROOM_CHECK_TIME ≤ usable) := by
  intro cand
  induction cand with
  | nil =>
    intro tu st
    exact ⟨[], by simp [swAssignLoop], by simp [swAssignLoop], by simp [swAssignLoop],
      by simp, Or.inl rfl⟩
  | cons r rest ih =>
    intro tu st
    simp only [swAssignLoop]
    split
    case isTrue hweek =>
      obtain ⟨picks, h1, h2, h3, h4, h5⟩ := ih tu st
      exact ⟨picks, h1, h2, h3,
        fun r' hr' => ⟨List.mem_cons_of_mem _ (h4 r' hr').1, (h4 r' hr').2⟩, h5⟩
    case isFalse hweek =>
      split
      case isTrue hconf =>
        obtain ⟨picks, h1, h2, h3, h4, h5⟩ := ih tu st
        exact ⟨picks, h1, h2, h3,
          fun r' hr' => ⟨List.mem_cons_of_mem _ (h4 r' hr').1, (h4 r' hr').2⟩, h5⟩
      case isFalse hconf =>
        split
        case isTrue hbreak =>
          exact ⟨[], by simp, by simp, by simp, by simp, Or.inl rfl⟩
        case isFalse hfit =>
          obtain ⟨picks, h1, h2, h3, h4, h5⟩ :=
            ih (tu + ROOM_CHECK_TIME)
              ⟨st.assignments ++ [mkAssignment s r], r.room :: st.rooms_assigned,
                (r.room, w) :: st.room_week_assigned⟩
          refine ⟨r :: picks, ?_, ?_, ?_, ?_, ?_⟩
          · rw [h1]; simp
          · rw [h2]; simp
          · rw [h3]; simp
          · intro r' hr'
            rcases List.mem_cons.mp hr' with rfl | hr'
            · exact ⟨List.mem_cons_self _ _, Bool.not_eq_true _ ▸ Bool.of_not_eq_true hconf⟩
            · exact ⟨List.mem_cons_of_mem _ ((h4 r' hr').1), (h4 r' hr').2⟩
          · right
            rcases h5 with rfl | h5
            · simp only [List.length_cons, List.length_nil]
              push_cast
              simp only [ROOM_CHECK_TIME] at *
              omega
            · simp only [List.length_cons] at *
              push_cast at h5 ⊢
              simp only [ROOM_CHECK_TIME] at *
              omega

theorem zone_rooms_df_mem (rooms : List RoomRec) (assigned : List String) (z : String)
    (r : RoomRec) (h : r ∈ zone_rooms_df rooms assigned z) :
    r ∈ rooms ∧ r.zone = z ∧ r.room ∉ assigned := by
  have h' := (isort_mem _ _ _).mp h
  have h'' := List.mem_filter.mp h'
  refine ⟨h''.1, ?_, ?_⟩
  · have := h''.2
    simp only [Bool.and_eq_true, decide_eq_true_eq] at this
    exact this.1
  · have := h''.2
    simp only [Bool.and_eq_true, decide_eq_true_eq] at this
    exact this.2

theorem processShiftSW_spec (records : List ClassRecord) (rooms : List RoomRec)
    (isoWeek : Int → Nat) (st : SWState) (s : StudentShift) :
    ∃ picks : List RoomRec,
      (processShiftSW records rooms isoWeek st s).assignments
          = st.assignments ++ picks.map (mkAssignment s) ∧
      (processShiftSW records rooms isoWeek st s).rooms_assigned
          = (picks.map (fun r => r.room)).reverse ++ st.rooms_assigned ∧
      (processShiftSW records rooms isoWeek st s).room_week_assigned
          = (picks.map (fun r => (r.room, isoWeek s.startDt))).reverse ++ st.room_week_assigned ∧
      (∀ r ∈ picks, r ∈ rooms ∧ r.room ∉ st.rooms_assigned ∧
        hasConflict records r.room s.day s.startDt s.endDt = false) ∧
      (picks = [] ∨ (picks.length : Int) * ROOM_CHECK_TIME
          ≤ (s.endDt - s.startDt) - SHIFT_START_END_BUFFER) ∧
      (picks ≠ [] → ∃ z, zone_chosen rooms st.rooms_assigned = some z ∧ ∀ r ∈ picks, r.zone = z) := by
  unfold processShiftSW
  dsimp only
  split
  next h0 =>
    exact ⟨[], by simp, by simp, by simp, by simp, Or.inl rfl, by simp⟩
  next h0 =>
    split
    next =>
      exact ⟨[], by simp, by simp, by simp, by simp, Or.inl rfl, by simp⟩
    next z hz =>
      split
      next =>
        exact ⟨[], by simp, by simp, by simp, by simp, Or.inl rfl, by simp⟩
      next hne =>
        obtain ⟨picks, h1, h2, h3, h4, h5⟩ :=
          swAssignLoop_spec records s (isoWeek s.startDt)
            ((s.endDt - s.startDt) - SHIFT_START_END_BUFFER)
            (zone_rooms_df rooms st.rooms_assigned z) 0 st
        refine ⟨picks, h1, h2, h3, ?_, ?_, ?_⟩
        · intro r hr
          obtain ⟨hmem, hconf⟩ := h4 r hr
          obtain ⟨hr1, hr2, hr3⟩ := zone_rooms_df_mem rooms st.rooms_assigned z r hmem
          exact ⟨hr1, hr3, hconf⟩
        · rcases h5 with rfl | h5
          · exact Or.inl rfl
          · right; omega
        · intro hne'
          refine ⟨z, hz, ?_⟩
          intro r hr
          exact (zone_rooms_df_mem rooms st.rooms_assigned z r ((h4 r hr).1)).2.1

/-! ## Structure lemmas for the two-week inner loop -/

theorem twAssignLoop_spec (records : List ClassRecord) (s : StudentShift) (usable : Int) :
    ∀ (cand : List RoomRec) (tu : Int) (used : List String) (st : TWState),
    ∃ picks : List RoomRec,
      (twAssignLoop records s usable cand tu used st).assignments_base
          = st.assignments_base ++ picks.map (mkAssignment s) ∧
      (twAssignLoop records s usable cand tu used st).rooms_assigned_global
          = (picks.map (fun r => r.room)).reverse ++ st.rooms_assigned_global ∧
      (∀ r ∈ picks, r ∈ cand ∧ r.room ∉ st.rooms_assigned_global ∧
        hasConflict records r.room s.day s.startDt s.endDt = false) ∧
      (picks = [] ∨ tu + (picks.length : Int) * EFFECTIVE_ROOM_CHECK_TIME ≤ usable) := by
  intro cand
  induction cand with
  | nil =>
    intro tu used st
    exact ⟨[], by simp [twAssignLoop], by simp [twAssignLoop], by simp, Or.inl rfl⟩
  | cons r rest ih =>
    intro tu used st
    simp only [twAssignLoop]
    split
    case isTrue hused =>
      obtain ⟨picks, h1, h2, h3, h4⟩ := ih tu used st
      exact ⟨picks, h1, h2,
        fun r' hr' => ⟨List.mem_cons_of_mem _ (h3 r' hr').1, (h3 r' hr').2.1, (h3 r' hr').2.2⟩, h4⟩
    case isFalse hused =>
      split
      case isTrue hconf =>
        obtain ⟨picks, h1, h2, h3, h4⟩ := ih tu used st
        exact ⟨picks, h1, h2,
          fun r' hr' => ⟨List.mem_cons_of_mem _ (h3 r' hr').1, (h3 r' hr').2.1, (h3 r' hr').2.2⟩, h4⟩
      case isFalse hconf =>
        split
        case isTrue hbreak =>
          exact ⟨[], by simp, by simp, by simp, Or.inl rfl⟩
        case isFalse hfit =>
          obtain ⟨picks, h1, h2, h3, h4⟩ :=
            ih (tu + EFFECTIVE_ROOM_CHECK_TIME) (r.room :: used)
              ⟨st.assignments_base ++ [mkAssignment s r], r.room :: st.rooms_assigned_global⟩
          refine ⟨r :: picks, ?_, ?_, ?_, ?_⟩
          · rw [h1]; simp
          · rw [h2]; simp
          · intro r' hr'
            rcases List.mem_cons.mp hr' with rfl | hr'
            · refine ⟨List.mem_cons_self _ _, ?_, Bool.not_eq_true _ ▸ Bool.of_not_eq_true hconf⟩
              intro hmem
              exact hused (Or.inr hmem)
            · obtain ⟨hm, hg, hc⟩ := h3 r' hr'
              refine ⟨List.mem_cons_of_mem _ hm, ?_, hc⟩
              intro hmem
              exact hg (List.mem_cons_of_mem _ hmem)
          · right
            rcases h4 with rfl | h4
            · simp only [List.length_cons, List.length_nil]
              push_cast
              simp only [EFFECTIVE_ROOM_CHECK_TIME] at *
              omega
            · simp only [List.length_cons] at *
              push_cast at h4 ⊢
              simp only [EFFECTIVE_ROOM_CHECK_TIME] at *
              omega

theorem twCandidate_mem (rooms : List RoomRec) (assigned : List String) (z : String)
    (r : RoomRec) (h : r ∈ twCandidate rooms assigned z) :
    r ∈ rooms ∧ r.zone = z ∧ r.room ∉ assigned := by
  have h' := List.mem_filter.mp ((isort_mem _ _ _).mp h)
  have h'' := h'.2
  simp only [Bool.and_eq_true, decide_eq_true_eq] at h''
  exact ⟨h'.1, h''.1, h''.2⟩

theorem processShiftTW_spec (records : List ClassRecord) (rooms : List RoomRec)
    (st : TWState) (s : StudentShift) :
    ∃ picks : List RoomRec,
      (processShiftTW records rooms st s).assignments_base
          = st.assignments_base ++ picks.map (mkAssignment s) ∧
      (processShiftTW records rooms st s).rooms_assigned_global
          = (picks.map (fun r => r.room)).reverse ++ st.rooms_assigned_global ∧
      (∀ r ∈ picks, r ∈ rooms ∧ r.room ∉ st.rooms_assigned_global ∧
        hasConflict records r.room s.day s.startDt s.endDt = false) ∧
      (picks = [] ∨ (picks.length : Int) * EFFECTIVE_ROOM_CHECK_TIME
          ≤ (s.endDt - s.startDt) - SHIFT_START_END_BUFFER) ∧
      (picks ≠ [] → ∃ z, twZoneChosen rooms st.rooms_assigned_global = some z ∧
        ∀ r ∈ picks, r.zone = z) := by
  unfold processShiftTW
  dsimp only
  split
  next h0 =>
    exact ⟨[], by simp, by simp, by simp, Or.inl rfl, by simp⟩
  next h0 =>
    split
    next =>
      exact ⟨[], by simp, by simp, by simp, Or.inl rfl, by simp⟩
    next z hz =>
      obtain ⟨picks, h1, h2, h3, h4⟩ :=
        twAssignLoop_spec records s ((s.endDt - s.startDt) - SHIFT_START_END_BUFFER)
          (twCandidate rooms st.rooms_assigned_global z) 0 [] st
      refine ⟨picks, h1, h2, ?_, ?_, ?_⟩
      · intro r hr
        obtain ⟨hm, hg, hc⟩ := h3 r hr
        exact ⟨(twCandidate_mem rooms st.rooms_assigned_global z r hm).1, hg, hc⟩
      · rcases h4 with rfl | h4
        · exact Or.inl rfl
        · right; omega
      · intro hne
        refine ⟨z, hz, ?_⟩
        intro r hr
        exact (twCandidate_mem rooms st.rooms_assigned_global z r ((h3 r hr).1)).2.1

/-! ## Claim C3: time-budget respect -/

/-- C3. Time-budget respect: for every student shift (with a well-formed
start ≤ end), the total check time consumed — the number of rooms assigned in
that shift times the per-room check minutes (10 single-week, the effective 5
two-week) — is at most the shift's usable minutes (shift length minus the
buffer); and a shift of 8 minutes with 10-minute check time yields zero
assignments regardless of room availability. -/
theorem c3_time_budget :
    (∀ (records : List ClassRecord) (rooms : List RoomRec) (isoWeek : Int → Nat)
        (st : SWState) (s : StudentShift), s.startDt ≤ s.endDt →
      ∃ new : List Assignment,
        (processShiftSW records rooms isoWeek st s).assignments = st.assignments ++ new ∧
        (new.length : Int) * ROOM_CHECK_TIME ≤ (s.endDt - s.startDt) - SHIFT_START_END_BUFFER) ∧
    (∀ (records : List ClassRecord) (rooms : List RoomRec)
        (st : TWState) (s : StudentShift), s.startDt ≤ s.endDt →
      ∃ new : List Assignment,
        (processShiftTW records rooms st s).assignments_base = st.assignments_base ++ new ∧
        (new.length : Int) * EFFECTIVE_ROOM_CHECK_TIME
          ≤ (s.endDt - s.startDt) - SHIFT_START_END_BUFFER) ∧
    (∀ (records : List ClassRecord) (rooms : List RoomRec) (isoWeek : Int → Nat)
        (st : SWState) (s : StudentShift), s.endDt - s.startDt = 8 →
      (processShiftSW records rooms isoWeek st s).assignments = st.assignments) := by
  refine ⟨?_, ?_, ?_⟩
  · intro records rooms isoWeek st s hse
    obtain ⟨picks, h1, _, _, _, h5, _⟩ := processShiftSW_spec records rooms isoWeek st s
    refine ⟨picks.map (mkAssignment s), h1, ?_⟩
    rcases h5 with rfl | h5
    · simp only [List.length_map, List.length_nil, ROOM_CHECK_TIME, SHIFT_START_END_BUFFER]
      push_cast
      omega
    · simpa using h5
  · intro records rooms st s hse
    obtain ⟨picks, h1, _, _, h4, _⟩ := processShiftTW_spec records rooms st s
    refine ⟨picks.map (mkAssignment s), h1, ?_⟩
    rcases h4 with rfl | h4
    · simp only [List.length_map, List.length_nil, EFFECTIVE_ROOM_CHECK_TIME,
        SHIFT_START_END_BUFFER]
      push_cast
      omega
    · simpa using h4
  · intro records rooms isoWeek st s h8
    obtain ⟨picks, h1, _, _, _, h5, _⟩ := processShiftSW_spec records rooms isoWeek st s
    rcases picks with _ | ⟨p, ps⟩
    · simpa using h1
    · exfalso
      rcases h5 with h5 | h5
      · simp at h5
      · rw [h8] at h5
        simp only [ROOM_CHECK_TIME, SHIFT_START_END_BUFFER, List.length_cons] at h5
        push_cast at h5
        omega

/-- Witness for C3 at a concrete input: a 25-minute shift with one candidate
room obeys the single-week budget. -/
theorem c3_time_budget_witness :
    ((⟨"stu", "Monday", 0, 25⟩ : StudentShift).startDt
        ≤ (⟨"stu", "Monday", 0, 25⟩ : StudentShift).endDt) ∧
    ∃ new : List Assignment,
      (processShiftSW [] [⟨"AAA101", "Z", 1, "c"⟩] (fun _ => 1)
          ⟨[], [], []⟩ ⟨"stu", "Monday", 0, 25⟩).assignments
        = (⟨[], [], []⟩ : SWState).assignments ++ new ∧
      (new.length : Int) * ROOM_CHECK_TIME
        ≤ (((⟨"stu", "Monday", 0, 25⟩ : StudentShift).endDt
            - (⟨"stu", "Monday", 0, 25⟩ : StudentShift).startDt)) - SHIFT_START_END_BUFFER :=
  ⟨by decide, c3_time_budget.1 [] [⟨"AAA101", "Z", 1, "c"⟩] (fun _ => 1)
    ⟨[], [], []⟩ ⟨"stu", "Monday", 0, 25⟩ (by decide)⟩

/-! ## Claim C2: conflict freedom -/

theorem hasConflict_eq_false_iff (records : List ClassRecord) (rm day : String)
    (ss se : Int) :
    hasConflict records rm day ss se = false ↔
      ∀ iv ∈ schedule_by_room_day records rm (some day), overlapsShift iv ss se = false := by
  simp [hasConflict, List.any_eq_false]

theorem foldSW_noConflict (records : List ClassRecord) (rooms : List RoomRec)
    (isoWeek : Int → Nat) :
    ∀ (students : List StudentShift) (st : SWState),
      (∀ a ∈ st.assignments, hasConflict records a.room a.day a.shiftStart a.shiftEnd = false) →
      ∀ a ∈ (students.foldl (processShiftSW records rooms isoWeek) st).assignments,
        hasConflict records a.room a.day a.shiftStart a.shiftEnd = false := by
  intro students
  induction students with
  | nil => intro st h; simpa using h
  | cons s rest ih =>
    intro st h
    simp only [List.foldl_cons]
    apply ih
    obtain ⟨picks, h1, _, _, h4, _, _⟩ := processShiftSW_spec records rooms isoWeek st s
    intro a ha
    rw [h1] at ha
    rcases List.mem_append.mp ha with ha | ha
    · exact h a ha
    · obtain ⟨r, hr, rfl⟩ := List.mem_map.mp ha
      simpa [mkAssignment] using (h4 r hr).2.2

theorem foldTW_noConflict (records : List ClassRecord) (rooms : List RoomRec) :
    ∀ (students : List StudentShift) (st : TWState),
      (∀ a ∈ st.assignments_base,
        hasConflict records a.room a.day a.shiftStart a.shiftEnd = false) →
      ∀ a ∈ (students.foldl (processShiftTW records rooms) st).assignments_base,
        hasConflict records a.room a.day a.shiftStart a.shiftEnd = false := by
  intro students
  induction students with
  | nil => intro st h; simpa using h
  | cons s rest ih =>
    intro st h
    simp only [List.foldl_cons]
    apply ih
    obtain ⟨picks, h1, _, h3, _, _⟩ := processShiftTW_spec records rooms st s
    intro a ha
    rw [h1] at ha
    rcases List.mem_append.mp ha with ha | ha
    · exact h a ha
    · obtain ⟨r, hr, rfl⟩ := List.mem_map.mp ha
      simpa [mkAssignment] using (h3 r hr).2.2

/-- C2. Conflict-freedom: for every assignment either script produces, no
occupancy interval recorded for the assignment's (room, weekday) strictly
overlaps the shift interval; and the per-room eligibility test is exactly
"no interval satisfies `interval.start < shift_end AND interval.end >
shift_start`". -/
theorem c2_conflict_freedom :
    (∀ (records : List ClassRecord) (rooms : List RoomRec) (isoWeek : Int → Nat)
        (students : List StudentShift),
      ∀ a ∈ (runSW records rooms isoWeek students).assignments,
        ∀ iv ∈ schedule_by_room_day records a.room (some a.day),
          overlapsShift iv a.shiftStart a.shiftEnd = false) ∧
    (∀ (records : List ClassRecord) (rooms : List RoomRec) (students : List StudentShift),
      ∀ a ∈ (runTWBase records rooms students).assignments_base,
        ∀ iv ∈ schedule_by_room_day records a.room (some a.day),
          overlapsShift iv a.shiftStart a.shiftEnd = false) ∧
    (∀ (records : List ClassRecord) (rm day : String) (ss se : Int),
      hasConflict records rm day ss se = false ↔
        ∀ iv ∈ schedule_by_room_day records rm (some day), overlapsShift iv ss se = false) := by
  refine ⟨?_, ?_, hasConflict_eq_false_iff⟩
  · intro records rooms isoWeek students a ha
    exact (hasConflict_eq_false_iff records a.room a.day a.shiftStart a.shiftEnd).mp
      (foldSW_noConflict records rooms isoWeek students ⟨[], [], []⟩ (by simp) a ha)
  · intro records rooms students a ha
    exact (hasConflict_eq_false_iff records a.room a.day a.shiftStart a.shiftEnd).mp
      (foldTW_noConflict records rooms students ⟨[], []⟩ (by simp) a ha)

/-- Witness for C2 at a concrete input: the 10:00–11:00 Monday shift gets room
`AAA101` even though a class holds 09:00–09:50 there, and that recorded
interval indeed does not strictly overlap the shift. -/
theorem c2_conflict_freedom_witness :
    overlapsShift ((some 540 : Option Int), (some 590 : Option Int)) 600 660 = false :=
  c2_conflict_freedom.1 [⟨"Confirmed", "Mon", some 540, some 590, "AAA101"⟩]
    [⟨"AAA101", "Z", 1, "classroom"⟩] (fun _ => 1) [⟨"stu", "Monday", 600, 660⟩]
    ⟨"stu", "Monday", 600, 660, "AAA101", "AAA", "Z", 1, "classroom"⟩ (by decide)
    ((some 540 : Option Int), (some 590 : Option Int)) (by decide)

/-! ## Claim C4: single zone per shift -/

/-- C4. Single-zone-per-shift: in both scripts, all assignments created during
one student shift carry the zone chosen for that shift, and the candidate
frame walked for the shift only ever contains rooms of that zone. -/
theorem c4_single_zone_per_shift :
    (∀ (records : List ClassRecord) (rooms : List RoomRec) (isoWeek : Int → Nat)
        (st : SWState) (s : StudentShift),
      ∃ new : List Assignment,
        (processShiftSW records rooms isoWeek st s).assignments = st.assignments ++ new ∧
        (∀ z, zone_chosen rooms st.rooms_assigned = some z →
          ∀ r ∈ zone_rooms_df rooms st.rooms_assigned z, r.zone = z) ∧
        (new ≠ [] → ∃ z, zone_chosen rooms st.rooms_assigned = some z ∧
          ∀ a ∈ new, a.zone = z)) ∧
    (∀ (records : List ClassRecord) (rooms : List RoomRec) (st : TWState) (s : StudentShift),
      ∃ new : List Assignment,
        (processShiftTW records rooms st s).assignments_base = st.assignments_base ++ new ∧
        (∀ z, twZoneChosen rooms st.rooms_assigned_global = some z →
          ∀ r ∈ twCandidate rooms st.rooms_assigned_global z, r.zone = z) ∧
        (new ≠ [] → ∃ z, twZoneChosen rooms st.rooms_assigned_global = some z ∧
          ∀ a ∈ new, a.zone = z)) := by
  constructor
  · intro records rooms isoWeek st s
    obtain ⟨picks, h1, _, _, _, _, h6⟩ := processShiftSW_spec records rooms isoWeek st s
    refine ⟨picks.map (mkAssignment s), h1, ?_, ?_⟩
    · intro z _ r hr
      exact (zone_rooms_df_mem rooms st.rooms_assigned z r hr).2.1
    · intro hne
      obtain ⟨z, hz, hall⟩ := h6 (by simpa using hne)
      refine ⟨z, hz, ?_⟩
      intro a ha
      obtain ⟨r, hr, rfl⟩ := List.mem_map.mp ha
      simpa [mkAssignment] using hall r hr
  · intro records rooms st s
    obtain ⟨picks, h1, _, _, _, h5⟩ := processShiftTW_spec records rooms st s
    refine ⟨picks.map (mkAssignment s), h1, ?_, ?_⟩
    · intro z _ r hr
      exact (twCandidate_mem rooms st.rooms_assigned_global z r hr).2.1
    · intro hne
      obtain ⟨z, hz, hall⟩ := h5 (by simpa using hne)
      refine ⟨z, hz, ?_⟩
      intro a ha
      obtain ⟨r, hr, rfl⟩ := List.mem_map.mp ha
      simpa [mkAssignment] using hall r hr

/-- Witness for C4 at a concrete input: a shift that assigns two rooms of zone
`Z` has a chosen zone, and both created assignments carry it. -/
theorem c4_single_zone_per_shift_witness :
    ∃ new : List Assignment,
      (processShiftSW [] [⟨"AAA101", "Z", 1, "c"⟩, ⟨"AAA102", "Z", 2, "c"⟩] (fun _ => 1)
          ⟨[], [], []⟩ ⟨"stu", "Monday", 0, 25⟩).assignments
        = (⟨[], [], []⟩ : SWState).assignments ++ new ∧
      (∀ z, zone_chosen [⟨"AAA101", "Z", 1, "c"⟩, ⟨"AAA102", "Z", 2, "c"⟩] [] = some z →
        ∀ r ∈ zone_rooms_df [⟨"AAA101", "Z", 1, "c"⟩, ⟨"AAA102", "Z", 2, "c"⟩] [] z,
          r.zone = z) ∧
      (new ≠ [] → ∃ z, zone_chosen [⟨"AAA101", "Z", 1, "c"⟩, ⟨"AAA102", "Z", 2, "c"⟩] []
          = some z ∧ ∀ a ∈ new, a.zone = z) :=
  c4_single_zone_per_shift.1 [] [⟨"AAA101", "Z", 1, "c"⟩, ⟨"AAA102", "Z", 2, "c"⟩]
    (fun _ => 1) ⟨[], [], []⟩ ⟨"stu", "Monday", 0, 25⟩

/-! ## Claim C1: at-most-once room assignment -/

theorem swAssignLoop_nodup (records : List ClassRecord) (s : StudentShift) (w : Nat)
    (usable : Int) (raStart : List String) :
    ∀ (cand : List RoomRec) (tu : Int) (st : SWState),
      (∀ r ∈ cand, r.room ∉ raStart) →
      (∀ n ∈ st.rooms_assigned, n ∈ raStart ∨ (n, w) ∈ st.room_week_assigned) →
      ((st.assignments.map (fun a => a.room)).Nodup) →
      (∀ a ∈ st.assignments, a.room ∈ st.rooms_assigned) →
      (((swAssignLoop records s w usable cand tu st).assignments.map
          (fun a => a.room)).Nodup ∧
        (∀ a ∈ (swAssignLoop records s w usable cand tu st).assignments,
          a.room ∈ (swAssignLoop records s w usable cand tu st).rooms_assigned) ∧
        (∀ n ∈ (swAssignLoop records s w usable cand tu st).rooms_assigned,
          n ∈ raStart ∨ (n, w) ∈ (swAssignLoop records s w usable cand tu st).room_week_assigned)) := by
  intro cand
  induction cand with
  | nil =>
    intro tu st hcand hcouple hnodup hmem
    exact ⟨hnodup, hmem, hcouple⟩
  | cons r rest ih =>
    intro tu st hcand hcouple hnodup hmem
    simp only [swAssignLoop]
    split
    case isTrue hweek =>
      exact ih tu st (fun r' hr' => hcand r' (List.mem_cons_of_mem _ hr')) hcouple hnodup hmem
    case isFalse hweek =>
      split
      case isTrue hconf =>
        exact ih tu st (fun r' hr' => hcand r' (List.mem_cons_of_mem _ hr')) hcouple hnodup hmem
      case isFalse hconf =>
        split
        case isTrue hbreak =>
          exact ⟨hnodup, hmem, hcouple⟩
        case isFalse hfit =>
          have hfresh : r.room ∉ st.rooms_assigned := by
            intro hra
            rcases hcouple r.room hra with h' | h'
            · exact hcand r (List.mem_cons_self _ _) h'
            · exact hweek h'
          apply ih (tu + ROOM_CHECK_TIME)
            ⟨st.assignments ++ [mkAssignment s r], r.room :: st.rooms_assigned,
              (r.room, w) :: st.room_week_assigned⟩
          · exact fun r' hr' => hcand r' (List.mem_cons_of_mem _ hr')
          · intro n hn
            rcases List.mem_cons.mp hn with rfl | hn
            · exact Or.inr (List.mem_cons_self _ _)
            · rcases hcouple n hn with h' | h'
              · exact Or.inl h'
              · exact Or.inr (List.mem_cons_of_mem _ h')
          · rw [List.map_append]
            refine List.Nodup.append hnodup (by simp) ?_
            intro n hn hn'
            simp only [List.map_cons, mkAssignment, List.map_nil, List.mem_singleton] at hn'
            subst hn'
            obtain ⟨a, ha, haeq⟩ := List.mem_map.mp hn
            exact hfresh (haeq ▸ hmem a ha)
          · intro a ha
            rcases List.mem_append.mp ha with ha | ha
            · exact List.mem_cons_of_mem _ (hmem a ha)
            · simp only [List.mem_singleton] at ha
              subst ha
              exact List.mem_cons_self _ _

theorem processShiftSW_nodup (records : List ClassRecord) (rooms : List RoomRec)
    (isoWeek : Int → Nat) (st : SWState) (s : StudentShift)
    (hnodup : (st.assignments.map (fun a => a.room)).Nodup)
    (hmem : ∀ a ∈ st.assignments, a.room ∈ st.rooms_assigned) :
    (((processShiftSW records rooms isoWeek st s).assignments.map
        (fun a => a.room)).Nodup ∧
      ∀ a ∈ (processShiftSW records rooms isoWeek st s).assignments,
        a.room ∈ (processShiftSW records rooms isoWeek st s).rooms_assigned) := by
  unfold processShiftSW
  dsimp only
  split
  next => exact ⟨hnodup, hmem⟩
  next =>
    split
    next => exact ⟨hnodup, hmem⟩
    next z hz =>
      split
      next => exact ⟨hnodup, hmem⟩
      next =>
        have h := swAssignLoop_nodup records s (isoWeek s.startDt)
          ((s.endDt - s.startDt) - SHIFT_START_END_BUFFER) st.rooms_assigned
          (zone_rooms_df rooms st.rooms_assigned z) 0 st
          (fun r hr => (zone_rooms_df_mem rooms st.rooms_assigned z r hr).2.2)
          (fun n hn => Or.inl hn) hnodup hmem
        exact ⟨h.1, h.2.1⟩

theorem foldSW_nodup (records : List ClassRecord) (rooms : List RoomRec)
    (isoWeek : Int → Nat) :
    ∀ (students : List StudentShift) (st : SWState),
      (st.assignments.map (fun a => a.room)).Nodup →
      (∀ a ∈ st.assignments, a.room ∈ st.rooms_assigned) →
      (((students.foldl (processShiftSW records rooms isoWeek) st).assignments.map
          (fun a => a.room)).Nodup) := by
  intro students
  induction students with
  | nil => intro st h _; simpa using h
  | cons s rest ih =>
    intro st h1 h2
    simp only [List.foldl_cons]
    obtain ⟨h1', h2'⟩ := processShiftSW_nodup records rooms isoWeek st s h1 h2
    exact ih _ h1' h2'

theorem twAssignLoop_nodup (records : List ClassRecord) (s : StudentShift) (usable : Int) :
    ∀ (cand : List RoomRec) (tu : Int) (used : List String) (st : TWState),
      ((st.assignments_base.map (fun a => a.room)).Nodup) →
      (∀ a ∈ st.assignments_base, a.room ∈ st.rooms_assigned_global) →
      (((twAssignLoop records s usable cand tu used st).assignments_base.map
          (fun a => a.room)).Nodup ∧
        ∀ a ∈ (twAssignLoop records s usable cand tu used st).assignments_base,
          a.room ∈ (twAssignLoop records s usable cand tu used st).rooms_assigned_global) := by
  intro cand
  induction cand with
  | nil => intro tu used st h1 h2; exact ⟨h1, h2⟩
  | cons r rest ih =>
    intro tu used st h1 h2
    simp only [twAssignLoop]
    split
    case isTrue hused => exact ih tu used st h1 h2
    case isFalse hused =>
      split
      case isTrue hconf => exact ih tu used st h1 h2
      case isFalse hconf =>
        split
        case isTrue hbreak => exact ⟨h1, h2⟩
        case isFalse hfit =>
          have hfresh : r.room ∉ st.rooms_assigned_global := fun hmem => hused (Or.inr hmem)
          apply ih (tu + EFFECTIVE_ROOM_CHECK_TIME) (r.room :: used)
            ⟨st.assignments_base ++ [mkAssignment s r], r.room :: st.rooms_assigned_global⟩
          · rw [List.map_append]
            refine List.Nodup.append h1 (by simp) ?_
            intro n hn hn'
            simp only [List.map_cons, mkAssignment, List.map_nil, List.mem_singleton] at hn'
            subst hn'
            obtain ⟨a, ha, haeq⟩ := List.mem_map.mp hn
            exact hfresh (haeq ▸ h2 a ha)
          · intro a ha
            rcases List.mem_append.mp ha with ha | ha
            · exact List.mem_cons_of_mem _ (h2 a ha)
            · simp only [List.mem_singleton] at ha
              subst ha
              exact List.mem_cons_self _ _

theorem foldTW_nodup (records : List ClassRecord) (rooms : List RoomRec) :
    ∀ (students : List StudentShift) (st : TWState),
      (st.assignments_base.map (fun a => a.room)).Nodup →
      (∀ a ∈ st.assignments_base, a.room ∈ st.rooms_assigned_global) →
      (((students.foldl (processShiftTW records rooms) st).assignments_base.map
          (fun a => a.room)).Nodup) := by
  intro students
  induction students with
  | nil => intro st h _; simpa using h
  | cons s rest ih =>
    intro st h1 h2
    simp only [List.foldl_cons]
    unfold processShiftTW
    dsimp only
    split
    next => exact ih st h1 h2
    next =>
      split
      next => exact ih st h1 h2
      next z hz =>
        obtain ⟨h1', h2'⟩ := twAssignLoop_nodup records s _ _ 0 [] st h1 h2
        exact ih _ h1' h2'

theorem splitGroup_map_room (g : List Assignment) :
    (splitGroup g).map (fun a => a.room) = g.map (fun a => a.room) := by
  simp only [splitGroup, List.map_append, List.map_map]
  have h1 : ((fun a => a.room) ∘ relabelDay " 1") = fun a : Assignment => a.room := by
    funext a; simp [relabelDay]
  have h2 : ((fun a => a.room) ∘ relabelDay " 2") = fun a : Assignment => a.room := by
    funext a; simp [relabelDay]
  rw [h1, h2, ← List.map_append, List.take_append_drop]

theorem splitWeeks_map_room_perm :
    ∀ l : List Assignment,
      List.Perm ((splitWeeks l).map (fun a => a.room)) (l.map (fun a => a.room)) := by
  intro l
  induction l using splitWeeks.induct with
  | case1 => simp [splitWeeks]
  | case2 a rest ih =>
    rw [splitWeeks, List.map_append, splitGroup_map_room]
    have hperm := (List.filter_append_perm (fun b => sameKey a b) rest).map
      (fun a => a.room)
    rw [List.map_append] at hperm
    have step1 : List.Perm
        (((a :: rest.filter (fun b => sameKey a b)).map (fun x => x.room)) ++
          ((splitWeeks (rest.filter (fun b => !sameKey a b))).map (fun x => x.room)))
        (((a :: rest.filter (fun b => sameKey a b)).map (fun x => x.room)) ++
          ((rest.filter (fun b => !sameKey a b)).map (fun x => x.room))) := ih.append_left _
    refine step1.trans ?_
    simp only [List.map_cons, List.cons_append]
    exact hperm.cons a.room

/-- C1. At-most-once room assignment: in any run of either script, no room
identifier appears in more than one output assignment record — across the
whole single-week output, and in two-week mode across the final split output
(weeks 1 and 2 combined). -/
theorem c1_at_most_once :
    ∀ (records : List ClassRecord) (rooms : List RoomRec) (isoWeek : Int → Nat)
      (students : List StudentShift),
      ((runSW records rooms isoWeek students).assignments.map (fun a => a.room)).Nodup ∧
      ((runTW records rooms students).map (fun a => a.room)).Nodup := by
  intro records rooms isoWeek students
  constructor
  · exact foldSW_nodup records rooms isoWeek students ⟨[], [], []⟩ (by simp) (by simp)
  · have hbase : ((runTWBase records rooms students).assignments_base.map
        (fun a => a.room)).Nodup :=
      foldTW_nodup records rooms students ⟨[], []⟩ (by simp) (by simp)
    have hsplit := splitWeeks_map_room_perm (runTWBase records rooms students).assignments_base
    have hsort := (isort_perm finalLe
      (splitWeeks (runTWBase records rooms students).assignments_base)).map (fun a => a.room)
    exact ((hsort.trans hsplit).nodup_iff).mpr hbase

/-! ## Claim C9: completeness of the unassigned set -/

theorem foldSW_assigned_sub (records : List ClassRecord) (rooms : List RoomRec)
    (isoWeek : Int → Nat) :
    ∀ (students : List StudentShift) (st : SWState),
      (∀ n ∈ st.rooms_assigned, n ∈ rooms.map (fun r => r.room)) →
      ∀ n ∈ (students.foldl (processShiftSW records rooms isoWeek) st).rooms_assigned,
        n ∈ rooms.map (fun r => r.room) := by
  intro students
  induction students with
  | nil => intro st h; simpa using h
  | cons s rest ih =>
    intro st h
    simp only [List.foldl_cons]
    apply ih
    obtain ⟨picks, _, h2, _, h4, _, _⟩ := processShiftSW_spec records rooms isoWeek st s
    intro n hn
    rw [h2] at hn
    rcases List.mem_append.mp hn with hn | hn
    · rw [List.mem_reverse] at hn
      obtain ⟨r, hr, rfl⟩ := List.mem_map.mp hn
      exact List.mem_map.mpr ⟨r, (h4 r hr).1, rfl⟩
    · exact h n hn

theorem unchecked_rooms_mem (rooms : List RoomRec) (assigned : List String) (n : String) :
    n ∈ unchecked_rooms rooms assigned ↔
      n ∈ rooms.map (fun r => r.room) ∧ n ∉ assigned := by
  simp [unchecked_rooms, List.mem_filter, List.mem_dedup]

/-- C9. Completeness of the unassigned set (single-week mode): the unchecked
set is exactly the inventory minus the globally-assigned set, the two cover
the inventory with empty intersection (every assigned room is an inventory
room), and the output table is deduplicated and sorted by
(priority, building, room). -/
theorem c9_unassigned_complete :
    ∀ (records : List ClassRecord) (rooms : List RoomRec) (isoWeek : Int → Nat)
      (students : List StudentShift),
      (∀ n, n ∈ unchecked_rooms rooms (runSW records rooms isoWeek students).rooms_assigned ↔
        (n ∈ rooms.map (fun r => r.room) ∧
          n ∉ (runSW records rooms isoWeek students).rooms_assigned)) ∧
      (∀ n ∈ rooms.map (fun r => r.room),
        n ∈ unchecked_rooms rooms (runSW records rooms isoWeek students).rooms_assigned ∨
          n ∈ (runSW records rooms isoWeek students).rooms_assigned) ∧
      (∀ n, ¬(n ∈ unchecked_rooms rooms (runSW records rooms isoWeek students).rooms_assigned ∧
          n ∈ (runSW records rooms isoWeek students).rooms_assigned)) ∧
      (∀ n ∈ (runSW records rooms isoWeek students).rooms_assigned,
        n ∈ rooms.map (fun r => r.room)) ∧
      SortedBy urowLe (unchecked_df rooms (runSW records rooms isoWeek students).rooms_assigned) ∧
      (unchecked_df rooms (runSW records rooms isoWeek students).rooms_assigned).Nodup := by
  intro records rooms isoWeek students
  refine ⟨fun n => unchecked_rooms_mem rooms _ n, ?_, ?_, ?_, ?_, ?_⟩
  · intro n hn
    by_cases h : n ∈ (runSW records rooms isoWeek students).rooms_assigned
    · exact Or.inr h
    · exact Or.inl ((unchecked_rooms_mem rooms _ n).mpr ⟨hn, h⟩)
  · intro n ⟨h1, h2⟩
    exact ((unchecked_rooms_mem rooms _ n).mp h1).2 h2
  · exact foldSW_assigned_sub records rooms isoWeek students ⟨[], [], []⟩ (by simp)
  · exact isort_sorted urowLe
      (keyLex_total _ _ (keyLex_total _ _ (keyLe_total _)))
      (keyLex_trans _ _ (keyLex_trans _ _ (keyLe_trans _))) _
  · exact ((isort_perm urowLe _).nodup_iff).mpr (dropDups_nodup _)

/-- Witness for C9 at a concrete input: with one inventory room and no shifts,
the inventory room lands in the unchecked set (or would be assigned). -/
theorem c9_unassigned_complete_witness :
    "AAA101" ∈ unchecked_rooms [⟨"AAA101", "Z", 1, "c"⟩]
        (runSW [] [⟨"AAA101", "Z", 1, "c"⟩] (fun _ => 1) []).rooms_assigned ∨
      "AAA101" ∈ (runSW [] [⟨"AAA101", "Z", 1, "c"⟩] (fun _ => 1) []).rooms_assigned :=
  (c9_unassigned_complete [] [⟨"AAA101", "Z", 1, "c"⟩] (fun _ => 1) []).2.1
    "AAA101" (by decide)

/-! ## Claim C10: redundancy of the week-scoped set in the single-week script -/

theorem zone_rooms_df_names_nodup (rooms : List RoomRec) (assigned : List String) (z : String)
    (h : (rooms.map (fun r => r.room)).Nodup) :
    ((zone_rooms_df rooms assigned z).map (fun r => r.room)).Nodup := by
  have hperm := (isort_perm (keyLe fun r : RoomRec => r.priority)
    (rooms.filter (fun r => decide (r.zone = z) && decide (r.room ∉ assigned)))).map
      (fun r => r.room)
  refine (hperm.nodup_iff).mpr ?_
  exact h.sublist ((List.filter_sublist rooms).map (fun r => r.room))

theorem swLoop_eq_noWeek (records : List ClassRecord) (s : StudentShift) (w : Nat)
    (usable : Int) :
    ∀ (cand : List RoomRec) (tu : Int) (st : SWState),
      ((cand.map (fun r => r.room)).Nodup) →
      (∀ r ∈ cand, r.room ∉ st.rooms_assigned) →
      (∀ p ∈ st.room_week_assigned, p.1 ∈ st.rooms_assigned) →
      swAssignLoop records s w usable cand tu st
        = swAssignLoopNoWeek records s w usable cand tu st := by
  intro cand
  induction cand with
  | nil => intro tu st _ _ _; rfl
  | cons r rest ih =>
    intro tu st hnodup hfresh hcouple
    have hweek : ¬ ((r.room, w) ∈ st.room_week_assigned) := by
      intro h
      exact hfresh r (List.mem_cons_self _ _) (hcouple _ h)
    rw [List.map_cons] at hnodup
    have hnodup' := List.nodup_cons.mp hnodup
    simp only [swAssignLoop, swAssignLoopNoWeek, if_neg hweek]
    by_cases hconf : hasConflict records r.room s.day s.startDt s.endDt = true
    · rw [if_pos hconf, if_pos hconf]
      exact ih tu st hnodup'.2 (fun r' hr' => hfresh r' (List.mem_cons_of_mem _ hr')) hcouple
    · rw [if_neg hconf, if_neg hconf]
      by_cases hbreak : usable < tu + ROOM_CHECK_TIME
      · rw [if_pos hbreak, if_pos hbreak]
      · rw [if_neg hbreak, if_neg hbreak]
        apply ih
        · exact hnodup'.2
        · intro r' hr' hmem
          rcases List.mem_cons.mp hmem with heq | hmem'
          · exact hnodup'.1 (heq ▸ List.mem_map.mpr ⟨r', hr', rfl⟩)
          · exact hfresh r' (List.mem_cons_of_mem _ hr') hmem'
        · intro p hp
          rcases List.mem_cons.mp hp with rfl | hp
          · exact List.mem_cons_self _ _
          · exact List.mem_cons_of_mem _ (hcouple p hp)

theorem processShiftSW_eq_noWeek (records : List ClassRecord) (rooms : List RoomRec)
    (isoWeek : Int → Nat) (st : SWState) (s : StudentShift)
    (hrooms : (rooms.map (fun r => r.room)).Nodup)
    (hcouple : ∀ p ∈ st.room_week_assigned, p.1 ∈ st.rooms_assigned) :
    processShiftSW records rooms isoWeek st s = processShiftSWNoWeek records rooms isoWeek st s := by
  unfold processShiftSW processShiftSWNoWeek
  dsimp only
  split
  next => rfl
  next =>
    cases hz : zone_chosen rooms st.rooms_assigned with
    | none => rfl
    | some z =>
      dsimp only
      by_cases hzz : z = ""
      · rw [if_pos hzz, if_pos hzz]
      · rw [if_neg hzz, if_neg hzz]
        exact swLoop_eq_noWeek records s (isoWeek s.startDt) _ _ 0 st
          (zone_rooms_df_names_nodup rooms st.rooms_assigned z hrooms)
          (fun r hr => (zone_rooms_df_mem rooms st.rooms_assigned z r hr).2.2)
          hcouple

theorem processShiftSW_couple (records : List ClassRecord) (rooms : List RoomRec)
    (isoWeek : Int → Nat) (st : SWState) (s : StudentShift)
    (hcouple : ∀ p ∈ st.room_week_assigned, p.1 ∈ st.rooms_assigned) :
    ∀ p ∈ (processShiftSW records rooms isoWeek st s).room_week_assigned,
      p.1 ∈ (processShiftSW records rooms isoWeek st s).rooms_assigned := by
  obtain ⟨picks, _, h2, h3, _, _, _⟩ := processShiftSW_spec records rooms isoWeek st s
  intro p hp
  rw [h3] at hp
  rw [h2]
  rcases List.mem_append.mp hp with hp | hp
  · rw [List.mem_reverse] at hp
    obtain ⟨r, hr, rfl⟩ := List.mem_map.mp hp
    exact List.mem_append.mpr (Or.inl (List.mem_reverse.mpr (List.mem_map.mpr ⟨r, hr, rfl⟩)))
  · exact List.mem_append.mpr (Or.inr (hcouple p hp))

theorem foldSW_eq_noWeek (records : List ClassRecord) (rooms : List RoomRec)
    (isoWeek : Int → Nat) (hrooms : (rooms.map (fun r => r.room)).Nodup) :
    ∀ (students : List StudentShift) (st : SWState),
      (∀ p ∈ st.room_week_assigned, p.1 ∈ st.rooms_assigned) →
      students.foldl (processShiftSW records rooms isoWeek) st
        = students.foldl (processShiftSWNoWeek records rooms isoWeek) st := by
  intro students
  induction students with
  | nil => intro st _; rfl
  | cons s rest ih =>
    intro st hcouple
    simp only [List.foldl_cons]
    rw [← processShiftSW_eq_noWeek records rooms isoWeek st s hrooms hcouple]
    exact ih _ (processShiftSW_couple records rooms isoWeek st s hcouple)

/-- C10. Redundancy of the week-scoped set: when the room inventory has unique
room identifiers, the single-week script's (room, ISO week) set never rejects a
candidate that the all-time `rooms_assigned` filtering has not already
excluded, so the variant of the script with that check removed produces the
identical run state (assignments, assigned set and week set). -/
theorem c10_week_set_redundant :
    ∀ (records : List ClassRecord) (rooms : List RoomRec) (isoWeek : Int → Nat)
      (students : List StudentShift),
      (rooms.map (fun r => r.room)).Nodup →
      runSW records rooms isoWeek students = runSWNoWeek records rooms isoWeek students := by
  intro records rooms isoWeek students h
  exact foldSW_eq_noWeek records rooms isoWeek h students ⟨[], [], []⟩ (by simp)

/-- Witness for C10 at a concrete input: a two-room inventory with distinct
names runs identically with and without the week-scoped set check. -/
theorem c10_week_set_redundant_witness :
    (([⟨"AAA101", "Z", 1, "c"⟩, ⟨"BBB101", "Y", 1, "c"⟩] : List RoomRec).map
        (fun r => r.room)).Nodup ∧
    runSW [] [⟨"AAA101", "Z", 1, "c"⟩, ⟨"BBB101", "Y", 1, "c"⟩] (fun _ => 1)
        [⟨"stu", "Monday", 0, 25⟩]
      = runSWNoWeek [] [⟨"AAA101", "Z", 1, "c"⟩, ⟨"BBB101", "Y", 1, "c"⟩] (fun _ => 1)
        [⟨"stu", "Monday", 0, 25⟩] :=
  ⟨by decide, c10_week_set_redundant [] [⟨"AAA101", "Z", 1, "c"⟩, ⟨"BBB101", "Y", 1, "c"⟩]
    (fun _ => 1) [⟨"stu", "Monday", 0, 25⟩] (by decide)⟩

/-! ## Claim C5: week-split conservation -/

theorem string_suffix_cancel (d d' sfx : String) (h : d ++ sfx = d' ++ sfx) : d = d' := by
  have hd : d.data ++ sfx.data = d'.data ++ sfx.data := by
    rw [← String.data_append, ← String.data_append, h]
  have h2 := List.append_cancel_right hd
  cases d; cases d'; simp_all

theorem suffix_one_ne_two (d d' : String) : d ++ " 1" ≠ d' ++ " 2" := by
  intro h
  have hd : d.data ++ [' ', '1'] = d'.data ++ [' ', '2'] := by
    have h1 : (" 1" : String).data = [' ', '1'] := rfl
    have h2 : (" 2" : String).data = [' ', '2'] := rfl
    rw [← h1, ← h2, ← String.data_append, ← String.data_append, h]
  have h3 := (List.append_inj' hd rfl).2
  simp at h3

theorem splitGroup_filter_w1 (g : List Assignment) (s0 d0 s d : String)
    (hg : ∀ a ∈ g, a.student = s0 ∧ a.day = d0) :
    (splitGroup g).filter (fun a => decide (a.student = s) && decide (a.day = d ++ " 1"))
      = if s0 = s ∧ d0 = d
        then (g.take (split_idx g.length)).map (relabelDay " 1")
        else [] := by
  rw [splitGroup, List.filter_append]
  have hdrop : ((g.drop (split_idx g.length)).map (relabelDay " 2")).filter
      (fun a => decide (a.student = s) && decide (a.day = d ++ " 1")) = [] := by
    rw [List.filter_eq_nil_iff]
    intro b hb
    obtain ⟨a, _, rfl⟩ := List.mem_map.mp hb
    simp only [relabelDay, Bool.and_eq_true, decide_eq_true_eq, not_and]
    intro _
    exact fun hcontra => suffix_one_ne_two d a.day hcontra.symm
  rw [hdrop, List.append_nil]
  split
  case isTrue hk =>
    rw [List.filter_eq_self.mpr]
    intro b hb
    obtain ⟨a, ha, rfl⟩ := List.mem_map.mp hb
    obtain ⟨ha1, ha2⟩ := hg a (List.mem_of_mem_take ha)
    simp only [relabelDay, Bool.and_eq_true, decide_eq_true_eq]
    exact ⟨ha1.trans hk.1, by rw [ha2, hk.2]⟩
  case isFalse hk =>
    rw [List.filter_eq_nil_iff]
    intro b hb
    obtain ⟨a, ha, rfl⟩ := List.mem_map.mp hb
    obtain ⟨ha1, ha2⟩ := hg a (List.mem_of_mem_take ha)
    simp only [relabelDay, Bool.and_eq_true, decide_eq_true_eq, not_and]
    intro hs hd
    exact hk ⟨ha1 ▸ hs, ha2 ▸ string_suffix_cancel a.day d " 1" hd⟩

theorem splitGroup_filter_w2 (g : List Assignment) (s0 d0 s d : String)
    (hg : ∀ a ∈ g, a.student = s0 ∧ a.day = d0) :
    (splitGroup g).filter (fun a => decide (a.student = s) && decide (a.day = d ++ " 2"))
      = if s0 = s ∧ d0 = d
        then (g.drop (split_idx g.length)).map (relabelDay " 2")
        else [] := by
  rw [splitGroup, List.filter_append]
  have htake : ((g.take (split_idx g.length)).map (relabelDay " 1")).filter
      (fun a => decide (a.student = s) && decide (a.day = d ++ " 2")) = [] := by
    rw [List.filter_eq_nil_iff]
    intro b hb
    obtain ⟨a, _, rfl⟩ := List.mem_map.mp hb
    simp only [relabelDay, Bool.and_eq_true, decide_eq_true_eq, not_and]
    intro _
    exact fun hcontra => suffix_one_ne_two a.day d hcontra
  rw [htake, List.nil_append]
  split
  case isTrue hk =>
    rw [List.filter_eq_self.mpr]
    intro b hb
    obtain ⟨a, ha, rfl⟩ := List.mem_map.mp hb
    obtain ⟨ha1, ha2⟩ := hg a (List.mem_of_mem_drop ha)
    simp only [relabelDay, Bool.and_eq_true, decide_eq_true_eq]
    exact ⟨ha1.trans hk.1, by rw [ha2, hk.2]⟩
  case isFalse hk =>
    rw [List.filter_eq_nil_iff]
    intro b hb
    obtain ⟨a, ha, rfl⟩ := List.mem_map.mp hb
    obtain ⟨ha1, ha2⟩ := hg a (List.mem_of_mem_drop ha)
    simp only [relabelDay, Bool.and_eq_true, decide_eq_true_eq, not_and]
    intro hs hd
    exact hk ⟨ha1 ▸ hs, ha2 ▸ string_suffix_cancel a.day d " 2" hd⟩

theorem splitWeeks_group_prop (a : Assignment) (rest : List Assignment) :
    ∀ x ∈ a :: rest.filter (fun b => sameKey a b), x.student = a.student ∧ x.day = a.day := by
  intro x hx
  rcases List.mem_cons.mp hx with rfl | hx
  · exact ⟨rfl, rfl⟩
  · have h := (List.mem_filter.mp hx).2
    simp only [sameKey, Bool.and_eq_true, decide_eq_true_eq] at h
    exact h

theorem splitWeeks_filter_w1_nil (s d : String) :
    ∀ l : List Assignment, (∀ b ∈ l, ¬(b.student = s ∧ b.day = d)) →
      (splitWeeks l).filter
        (fun a => decide (a.student = s) && decide (a.day = d ++ " 1")) = [] := by
  intro l
  induction l using splitWeeks.induct with
  | case1 => intro _; simp [splitWeeks]
  | case2 a rest ih =>
    intro h
    rw [splitWeeks, List.filter_append,
      splitGroup_filter_w1 _ a.student a.day s d (splitWeeks_group_prop a rest),
      if_neg (h a (List.mem_cons_self _ _)), List.nil_append]
    exact ih (fun b hb => h b (List.mem_cons_of_mem _ (List.mem_filter.mp hb).1))

theorem splitWeeks_filter_w2_nil (s d : String) :
    ∀ l : List Assignment, (∀ b ∈ l, ¬(b.student = s ∧ b.day = d)) →
      (splitWeeks l).filter
        (fun a => decide (a.student = s) && decide (a.day = d ++ " 2")) = [] := by
  intro l
  induction l using splitWeeks.induct with
  | case1 => intro _; simp [splitWeeks]
  | case2 a rest ih =>
    intro h
    rw [splitWeeks, List.filter_append,
      splitGroup_filter_w2 _ a.student a.day s d (splitWeeks_group_prop a rest),
      if_neg (h a (List.mem_cons_self _ _)), List.nil_append]
    exact ih (fun b hb => h b (List.mem_cons_of_mem _ (List.mem_filter.mp hb).1))

theorem sameKey_of_key (a b : Assignment) (s d : String)
    (hk : a.student = s ∧ a.day = d) (hb : b.student = s ∧ b.day = d) :
    sameKey a b = true := by
  simp only [sameKey, Bool.and_eq_true, decide_eq_true_eq]
  exact ⟨hb.1.trans hk.1.symm, hb.2.trans hk.2.symm⟩

theorem filter_key_through_rest (a : Assignment) (rest : List Assignment) (s d : String)
    (hk : ¬(a.student = s ∧ a.day = d)) :
    (rest.filter (fun b => !sameKey a b)).filter
        (fun b => decide (b.student = s) && decide (b.day = d))
      = rest.filter (fun b => decide (b.student = s) && decide (b.day = d)) := by
  rw [List.filter_filter]
  apply List.filter_congr
  intro b _
  by_cases hkb : b.student = s ∧ b.day = d
  · have hsk : sameKey a b = false := by
      rw [Bool.eq_false_iff]
      intro hcontra
      simp only [sameKey, Bool.and_eq_true, decide_eq_true_eq] at hcontra
      exact hk ⟨hcontra.1.symm.trans hkb.1, hcontra.2.symm.trans hkb.2⟩
    simp [hkb.1, hkb.2, hsk]
  · have hfb : (decide (b.student = s) && decide (b.day = d)) = false := by
      rw [Bool.and_eq_false_iff]
      by_cases h1 : b.student = s
      · exact Or.inr (by simpa using fun h2 => hkb ⟨h1, h2⟩)
      · exact Or.inl (by simpa using h1)
    simp [hfb]

theorem splitWeeks_filter_w1 (s d : String) :
    ∀ l : List Assignment,
      (splitWeeks l).filter (fun a => decide (a.student = s) && decide (a.day = d ++ " 1"))
        = ((l.filter (fun a => decide (a.student = s) && decide (a.day = d))).take
            (split_idx ((l.filter
              (fun a => decide (a.student = s) && decide (a.day = d))).length))).map
            (relabelDay " 1") := by
  intro l
  induction l using splitWeeks.induct with
  | case1 => simp [splitWeeks]
  | case2 a rest ih =>
    rw [splitWeeks, List.filter_append,
      splitGroup_filter_w1 _ a.student a.day s d (splitWeeks_group_prop a rest)]
    by_cases hk : a.student = s ∧ a.day = d
    · rw [if_pos hk]
      have hnil := splitWeeks_filter_w1_nil s d (rest.filter (fun b => !sameKey a b))
        (by
          intro b hb hcontra
          have hb2 := (List.mem_filter.mp hb).2
          rw [Bool.not_eq_eq_eq_not, Bool.not_true] at hb2
          exact absurd (sameKey_of_key a b s d hk hcontra) (by simp [hb2]))
      rw [hnil, List.append_nil]
      have hgrp : rest.filter (fun b => sameKey a b)
          = rest.filter (fun b => decide (b.student = s) && decide (b.day = d)) := by
        apply List.filter_congr
        intro b _
        simp only [sameKey, hk.1, hk.2]
      have hfl : (a :: rest).filter (fun x => decide (x.student = s) && decide (x.day = d))
          = a :: rest.filter (fun x => decide (x.student = s) && decide (x.day = d)) :=
        List.filter_cons_of_pos (by simp [hk.1, hk.2])
      rw [hfl, ← hgrp]
    · rw [if_neg hk, List.nil_append, ih, filter_key_through_rest a rest s d hk]
      have hfl : (a :: rest).filter (fun x => decide (x.student = s) && decide (x.day = d))
          = rest.filter (fun x => decide (x.student = s) && decide (x.day = d)) :=
        List.filter_cons_of_neg (by
          simp only [Bool.and_eq_true, decide_eq_true_eq]
          exact fun hcontra => hk hcontra)
      rw [hfl]

theorem splitWeeks_filter_w2 (s d : String) :
    ∀ l : List Assignment,
      (splitWeeks l).filter (fun a => decide (a.student = s) && decide (a.day = d ++ " 2"))
        = ((l.filter (fun a => decide (a.student = s) && decide (a.day = d))).drop
            (split_idx ((l.filter
              (fun a => decide (a.student = s) && decide (a.day = d))).length))).map
            (relabelDay " 2") := by
  intro l
  induction l using splitWeeks.induct with
  | case1 => simp [splitWeeks]
  | case2 a rest ih =>
    rw [splitWeeks, List.filter_append,
      splitGroup_filter_w2 _ a.student a.day s d (splitWeeks_group_prop a rest)]
    by_cases hk : a.student = s ∧ a.day = d
    · rw [if_pos hk]
      have hnil := splitWeeks_filter_w2_nil s d (rest.filter (fun b => !sameKey a b))
        (by
          intro b hb hcontra
          have hb2 := (List.mem_filter.mp hb).2
          rw [Bool.not_eq_eq_eq_not, Bool.not_true] at hb2
          exact absurd (sameKey_of_key a b s d hk hcontra) (by simp [hb2]))
      rw [hnil, List.append_nil]
      have hgrp : rest.filter (fun b => sameKey a b)
          = rest.filter (fun b => decide (b.student = s) && decide (b.day = d)) := by
        apply List.filter_congr
        intro b _
        simp only [sameKey, hk.1, hk.2]
      have hfl : (a :: rest).filter (fun x => decide (x.student = s) && decide (x.day = d))
          = a :: rest.filter (fun x => decide (x.student = s) && decide (x.day = d)) :=
        List.filter_cons_of_pos (by simp [hk.1, hk.2])
      rw [hfl, ← hgrp]
    · rw [if_neg hk, List.nil_append, ih, filter_key_through_rest a rest s d hk]
      have hfl : (a :: rest).filter (fun x => decide (x.student = s) && decide (x.day = d))
          = rest.filter (fun x => decide (x.student = s) && decide (x.day = d)) :=
        List.filter_cons_of_neg (by
          simp only [Bool.and_eq_true, decide_eq_true_eq]
          exact fun hcontra => hk hcontra)
      rw [hfl]

theorem split_idx_le (n : Nat) : split_idx n ≤ n := by
  simp only [split_idx]
  omega

/-- C5. Week-split conservation: in two-week mode, for each (student, original
day) group of the greedy base output, the first `ceil(n/2)` assignments (in
greedy insertion order) are relabeled `"<Day> 1"` and the rest `"<Day> 2"`;
the week-1 rows number `ceil(n/2)`, the two counts sum to `n`, and greedy
order is preserved within each half. -/
theorem c5_week_split :
    ∀ (records : List ClassRecord) (rooms : List RoomRec) (students : List StudentShift)
      (s d : String),
      ((splitWeeks (runTWBase records rooms students).assignments_base).filter
          (fun a => decide (a.student = s) && decide (a.day = d ++ " 1")))
        = (((runTWBase records rooms students).assignments_base.filter
            (fun a => decide (a.student = s) && decide (a.day = d))).take
              (split_idx ((runTWBase records rooms students).assignments_base.filter
                (fun a => decide (a.student = s) && decide (a.day = d))).length)).map
            (relabelDay " 1") ∧
      ((splitWeeks (runTWBase records rooms students).assignments_base).filter
          (fun a => decide (a.student = s) && decide (a.day = d ++ " 2")))
        = (((runTWBase records rooms students).assignments_base.filter
            (fun a => decide (a.student = s) && decide (a.day = d))).drop
              (split_idx ((runTWBase records rooms students).assignments_base.filter
                (fun a => decide (a.student = s) && decide (a.day = d))).length)).map
            (relabelDay " 2") ∧
      ((splitWeeks (runTWBase records rooms students).assignments_base).filter
          (fun a => decide (a.student = s) && decide (a.day = d ++ " 1"))).length
        = split_idx ((runTWBase records rooms students).assignments_base.filter
            (fun a => decide (a.student = s) && decide (a.day = d))).length ∧
      ((splitWeeks (runTWBase records rooms students).assignments_base).filter
          (fun a => decide (a.student = s) && decide (a.day = d ++ " 1"))).length
        + ((splitWeeks (runTWBase records rooms students).assignments_base).filter
            (fun a => decide (a.student = s) && decide (a.day = d ++ " 2"))).length
        = ((runTWBase records rooms students).assignments_base.filter
            (fun a => decide (a.student = s) && decide (a.day = d))).length := by
  intro records rooms students s d
  have h1 := splitWeeks_filter_w1 s d (runTWBase records rooms students).assignments_base
  have h2 := splitWeeks_filter_w2 s d (runTWBase records rooms students).assignments_base
  have hlen1 : ((splitWeeks (runTWBase records rooms students).assignments_base).filter
      (fun a => decide (a.student = s) && decide (a.day = d ++ " 1"))).length
      = split_idx ((runTWBase records rooms students).assignments_base.filter
          (fun a => decide (a.student = s) && decide (a.day = d))).length := by
    rw [h1, List.length_map, List.length_take]
    exact Nat.min_eq_left (split_idx_le _)
  have hlen2 : ((splitWeeks (runTWBase records rooms students).assignments_base).filter
      (fun a => decide (a.student = s) && decide (a.day = d ++ " 2"))).length
      = ((runTWBase records rooms students).assignments_base.filter
          (fun a => decide (a.student = s) && decide (a.day = d))).length
        - split_idx ((runTWBase records rooms students).assignments_base.filter
            (fun a => decide (a.student = s) && decide (a.day = d))).length := by
    rw [h2, List.length_map, List.length_drop]
  refine ⟨h1, h2, hlen1, ?_⟩
  rw [hlen1, hlen2]
  have := split_idx_le ((runTWBase records rooms students).assignments_base.filter
    (fun a => decide (a.student = s) && decide (a.day = d))).length
  omega

/-! ## Claim C6: candidate ordering -/

/-- C6 counterexample: with two equal-priority rooms listed as `BBB9` then
`AAA1` in one zone, the single-week candidate frame
(`sort_values(by='priority')`, no secondary columns) keeps `BBB9` first, and
the run assigns in that order — re-sorting the frame by the claimed
(priority, building, room) key would change it, so the claimed building/room
tie-break does not hold for the single-week script. -/
theorem c6_counterexample :
    zone_rooms_df [⟨"BBB9", "Z", 1, "c"⟩, ⟨"AAA1", "Z", 1, "c"⟩] [] "Z"
      = [⟨"BBB9", "Z", 1, "c"⟩, ⟨"AAA1", "Z", 1, "c"⟩] ∧
    isort roomLexLe (zone_rooms_df [⟨"BBB9", "Z", 1, "c"⟩, ⟨"AAA1", "Z", 1, "c"⟩] [] "Z")
      ≠ zone_rooms_df [⟨"BBB9", "Z", 1, "c"⟩, ⟨"AAA1", "Z", 1, "c"⟩] [] "Z" ∧
    (runSW [] [⟨"BBB9", "Z", 1, "c"⟩, ⟨"AAA1", "Z", 1, "c"⟩] (fun _ => 1)
        [⟨"stu", "Monday", 0, 60⟩]).assignments.map (fun a => a.room)
      = ["BBB9", "AAA1"] :=
  ⟨by decide, by decide, by decide⟩

/-- C6 (amended). Candidate ordering: within the chosen zone the single-week
script processes candidates in ascending priority order only (ties keep the
frame's prior order), while the two-week script orders by
(priority, building, room); the scenario holds: three rooms of priorities
[1,3,2] and a 25-minute shift at 10 minutes per room yield exactly two
assignments, the priority-1 room first and the priority-2 room second. -/
theorem c6_candidate_ordering :
    (∀ (rooms : List RoomRec) (assigned : List String) (z : String),
      SortedBy (keyLe (fun r : RoomRec => r.priority)) (zone_rooms_df rooms assigned z)) ∧
    (∀ (rooms : List RoomRec) (assigned : List String) (z : String),
      SortedBy roomLexLe (twCandidate rooms assigned z)) ∧
    ((runSW [] [⟨"AAA101", "Z", 1, "c"⟩, ⟨"AAA102", "Z", 3, "c"⟩, ⟨"AAA103", "Z", 2, "c"⟩]
        (fun _ => 1) [⟨"stu", "Monday", 0, 25⟩]).assignments.map
          (fun a => (a.room, a.priority))
      = [("AAA101", 1), ("AAA103", 2)]) := by
  refine ⟨?_, ?_, by decide⟩
  · intro rooms assigned z
    exact isort_sorted _ (keyLe_total _) (keyLe_trans _) _
  · intro rooms assigned z
    exact isort_sorted _ (keyLex_total _ _ (keyLex_total _ _ (keyLe_total _)))
      (keyLex_trans _ _ (keyLex_trans _ _ (keyLe_trans _))) _

/-! ## Claim C7: zone selection -/

/-- C7. The single-week script's guard after the zone walk is Python's
`if not zone_chosen:`, a falsy test that also fires when the chosen zone's
name is the empty string: with one unassigned room in zone `""` and a valid
60-minute shift, the walk does choose that zone, yet the shift is skipped and
nothing is assigned — contradicting "whenever some zone still has an
unassigned room, a zone is chosen, regardless of the zone's name". The
two-week script, which instead skips empty candidate frames and breaks, does
assign the room, matching the spec's intent. -/
theorem c7_zone_selection_bug :
    (unassignedRooms [⟨"AAA101", "", 1, "c"⟩] [] ≠ []) ∧
    zone_chosen [⟨"AAA101", "", 1, "c"⟩] [] = some "" ∧
    (runSW [] [⟨"AAA101", "", 1, "c"⟩] (fun _ => 1)
        [⟨"stu", "Monday", 0, 60⟩]).assignments = [] ∧
    (runTWBase [] [⟨"AAA101", "", 1, "c"⟩]
        [⟨"stu", "Monday", 0, 60⟩]).assignments_base.map (fun a => a.room) = ["AAA101"] :=
  ⟨by decide, by decide, by decide, by decide⟩

/-! ## Claim C8: occupancy-index construction -/

/-- C8 counterexample: a `Confirmed` row whose date/time combination failed to
parse (NaT endpoints) still contributes an interval to the (room, weekday)
index — it is not dropped from the index, contrary to the claim. -/
theorem c8_counterexample :
    schedule_by_room_day [⟨"Confirmed", "Mon", none, none, "AAA101"⟩] "AAA101" (some "Monday")
      = [((none : Option Int), (none : Option Int))] ∧
    schedule_by_room_day [⟨"Confirmed", "Mon", none, none, "AAA101"⟩] "AAA101" (some "Monday")
      ≠ [] :=
  ⟨by decide, by decide⟩

/-- C8 (amended). Occupancy-index construction: only `Confirmed` rows
participate; a multi-room row yields one entry per listed room with the same
interval; and a row whose date/time combination cannot be parsed keeps an
interval with NaT (`none`) endpoints in the index, which never satisfies the
strict-overlap test — so it never causes a conflict (behaviorally dropped, not
an error), though it does remain in the index. -/
theorem c8_occupancy_index :
    (∀ (r : ClassRecord) (records : List ClassRecord) (rm : String) (dy : Option String),
      r.status ≠ "Confirmed" →
      schedule_by_room_day (r :: records) rm dy = schedule_by_room_day records rm dy) ∧
    (∀ (r : ClassRecord), r.status = "Confirmed" →
      ∀ rm ∈ splitRooms r.locations,
        (r.startDT, r.endDT) ∈ schedule_by_room_day [r] rm (dayMap r.dayOfWeek)) ∧
    (∀ (e : Option Int) (ss se : Int),
      overlapsShift ((none : Option Int), e) ss se = false) ∧
    (∀ (sdt : Option Int) (ss se : Int),
      overlapsShift (sdt, (none : Option Int)) ss se = false) := by
  refine ⟨?_, ?_, ?_, ?_⟩
  · intro r records rm dy h
    unfold schedule_by_room_day
    rw [List.filter_cons_of_neg (by simpa using h)]
  · intro r h rm hrm
    unfold schedule_by_room_day
    rw [List.filter_cons_of_pos (by simpa using h)]
    simp only [List.filter_nil, List.flatMap_cons, List.flatMap_nil, List.append_nil]
    exact List.mem_filterMap.mpr ⟨rm, hrm, by simp⟩
  · intro e ss se
    rfl
  · intro sdt ss se
    simp only [overlapsShift]
    have h : optLt (some ss) none = false := rfl
    rw [h, Bool.and_false]

/-- Witness for C8 (amended) at a concrete input: a confirmed multi-room row
`"AAA101, BBB202"` contributes its interval to room `BBB202`'s index entry. -/
theorem c8_occupancy_index_witness :
    ((⟨"Confirmed", "Mon", some 540, some 590, "AAA101, BBB202"⟩ : ClassRecord).startDT,
      (⟨"Confirmed", "Mon", some 540, some 590, "AAA101, BBB202"⟩ : ClassRecord).endDT)
      ∈ schedule_by_room_day [⟨"Confirmed", "Mon", some 540, some 590, "AAA101, BBB202"⟩]
        "BBB202" (dayMap "Mon") :=
  c8_occupancy_index.2.1 ⟨"Confirmed", "Mon", some 540, some 590, "AAA101, BBB202"⟩
    (by decide) "BBB202" (by decide)
